import Mathlib

/-!
# Verification of the versioned object catalog core (lakeFS `catalog/rocks` + `index`)

This file shallowly embeds the data model and operations of the repository's
versioned-object-catalog core and proves the frozen claims about it.

`src/catalog/rocks/catalog.go` declares the basic types (`Entry`, `Commit`,
`Branch`, `DiffType`, iterators) and the four manager interfaces
(`RefManager`, `CommittedManager`, `StagingManager`, `Catalog`) but contains
no implementations; the operational definitions below are therefore modelled
from the specification's description of each operation, as marked on each
definition.  `src/unnamed/part_000` (package `index`) contains the real
`KVMultipartManager` code, which is embedded directly.

Machine integers that matter (part numbers) are embedded as `Int`; maps are
embedded as association lists with explicit lookup; fallible operations
return `Option`/`Except`.
-/

/-! ## Association-list helpers (the KV/map primitive used throughout) -/

/-- Look up a key in an association list (first match wins). -/
def lookupAssoc {κ ν : Type} [DecidableEq κ] : List (κ × ν) → κ → Option ν
  | [], _ => none
  | (k, v) :: t, q => if q = k then some v else lookupAssoc t q

/-- Set a key to a value in an association list, replacing the first
occurrence if present, appending otherwise. -/
def setAssoc {κ ν : Type} [DecidableEq κ] : List (κ × ν) → κ → ν → List (κ × ν)
  | [], k, v => [(k, v)]
  | (k', v') :: t, k, v => if k = k' then (k, v) :: t else (k', v') :: setAssoc t k v

/-- Remove every binding of a key from an association list. -/
def removeAssoc {κ ν : Type} [DecidableEq κ] : List (κ × ν) → κ → List (κ × ν)
  | [], _ => []
  | (k', v') :: t, k => if k' = k then removeAssoc t k else (k', v') :: removeAssoc t k

/-- The keys of an association list. -/
def assocKeys {κ ν : Type} (l : List (κ × ν)) : List κ := l.map (·.1)

theorem lookupAssoc_setAssoc_self {κ ν : Type} [DecidableEq κ]
    (l : List (κ × ν)) (k : κ) (v : ν) : lookupAssoc (setAssoc l k v) k = some v := by
  induction l with
  | nil => simp [setAssoc, lookupAssoc]
  | cons hd t ih =>
    obtain ⟨k', v'⟩ := hd
    by_cases h : k = k'
    · simp [setAssoc, h, lookupAssoc]
    · simp [setAssoc, h, lookupAssoc, ih]

theorem lookupAssoc_setAssoc_ne {κ ν : Type} [DecidableEq κ]
    (l : List (κ × ν)) (k q : κ) (v : ν) (hne : q ≠ k) :
    lookupAssoc (setAssoc l k v) q = lookupAssoc l q := by
  induction l with
  | nil => simp [setAssoc, lookupAssoc, hne]
  | cons hd t ih =>
    obtain ⟨k', v'⟩ := hd
    by_cases h : k = k'
    · subst h
      simp [setAssoc, lookupAssoc, hne]
    · by_cases hq : q = k'
      · simp [setAssoc, h, lookupAssoc, hq]
      · simp [setAssoc, h, lookupAssoc, hq, ih]

theorem lookupAssoc_removeAssoc_self {κ ν : Type} [DecidableEq κ]
    (l : List (κ × ν)) (k : κ) : lookupAssoc (removeAssoc l k) k = none := by
  induction l with
  | nil => simp [removeAssoc, lookupAssoc]
  | cons hd t ih =>
    obtain ⟨k', v'⟩ := hd
    by_cases h : k' = k
    · simpa [removeAssoc, h] using ih
    · simp [removeAssoc, h, lookupAssoc, Ne.symm h, ih]

theorem lookupAssoc_removeAssoc_ne {κ ν : Type} [DecidableEq κ]
    (l : List (κ × ν)) (k q : κ) (hne : q ≠ k) :
    lookupAssoc (removeAssoc l k) q = lookupAssoc l q := by
  induction l with
  | nil => simp [removeAssoc, lookupAssoc]
  | cons hd t ih =>
    obtain ⟨k', v'⟩ := hd
    by_cases h : k' = k
    · subst h
      simp [removeAssoc, lookupAssoc, hne, ih]
    · by_cases hq : q = k'
      · simp [removeAssoc, h, lookupAssoc, hq]
      · simp [removeAssoc, h, lookupAssoc, hq, ih]

theorem setAssoc_self_eq {κ ν : Type} [DecidableEq κ]
    (l : List (κ × ν)) (k : κ) (v : ν) (h : lookupAssoc l k = some v) :
    setAssoc l k v = l := by
  induction l with
  | nil => simp [lookupAssoc] at h
  | cons hd t ih =>
    obtain ⟨k', v'⟩ := hd
    by_cases hk : k = k'
    · subst hk
      simp [lookupAssoc] at h
      simp [setAssoc, h]
    · simp [lookupAssoc, hk] at h
      simp [setAssoc, hk, ih h]

theorem assocKeys_cons {κ ν : Type} (k : κ) (v : ν) (t : List (κ × ν)) :
    assocKeys ((k, v) :: t) = k :: assocKeys t := rfl

theorem setAssoc_cons_self {κ ν : Type} [DecidableEq κ] (k : κ) (v v' : ν) (t : List (κ × ν)) :
    setAssoc ((k, v') :: t) k v = (k, v) :: t := by
  simp [setAssoc]

theorem setAssoc_cons_ne {κ ν : Type} [DecidableEq κ] {k k' : κ} (v v' : ν)
    (t : List (κ × ν)) (h : k ≠ k') :
    setAssoc ((k', v') :: t) k v = (k', v') :: setAssoc t k v := by
  simp [setAssoc, h]

theorem lookupAssoc_mem {κ ν : Type} [DecidableEq κ]
    {l : List (κ × ν)} {k : κ} {v : ν} (h : lookupAssoc l k = some v) : (k, v) ∈ l := by
  induction l with
  | nil => simp [lookupAssoc] at h
  | cons hd t ih =>
    obtain ⟨k', v'⟩ := hd
    by_cases hk : k = k'
    · subst hk
      simp [lookupAssoc] at h
      simp [h]
    · simp [lookupAssoc, hk] at h
      exact List.mem_cons_of_mem _ (ih h)

theorem lookupAssoc_eq_none_of_not_mem_keys {κ ν : Type} [DecidableEq κ]
    {l : List (κ × ν)} {k : κ} (h : k ∉ assocKeys l) : lookupAssoc l k = none := by
  induction l with
  | nil => simp [lookupAssoc]
  | cons hd t ih =>
    obtain ⟨k', v'⟩ := hd
    rw [assocKeys_cons, List.mem_cons] at h
    push_neg at h
    simp [lookupAssoc, h.1, ih h.2]

theorem mem_keys_of_lookupAssoc_some {κ ν : Type} [DecidableEq κ]
    {l : List (κ × ν)} {k : κ} {v : ν} (h : lookupAssoc l k = some v) : k ∈ assocKeys l :=
  List.mem_map.mpr ⟨(k, v), lookupAssoc_mem h, rfl⟩

theorem setAssoc_ne_nil {κ ν : Type} [DecidableEq κ]
    (l : List (κ × ν)) (k : κ) (v : ν) : setAssoc l k v ≠ [] := by
  cases l with
  | nil => simp [setAssoc]
  | cons hd t =>
    obtain ⟨k', v'⟩ := hd
    by_cases h : k = k' <;> simp [setAssoc, h]

theorem assocKeys_setAssoc {κ ν : Type} [DecidableEq κ]
    (l : List (κ × ν)) (k : κ) (v : ν) (h : k ∈ assocKeys l) :
    assocKeys (setAssoc l k v) = assocKeys l := by
  induction l with
  | nil => simp [assocKeys] at h
  | cons hd t ih =>
    obtain ⟨k', v'⟩ := hd
    by_cases hk : k = k'
    · subst hk
      rw [setAssoc_cons_self, assocKeys_cons, assocKeys_cons]
    · rw [setAssoc_cons_ne _ _ _ hk, assocKeys_cons, assocKeys_cons]
      rw [assocKeys_cons, List.mem_cons] at h
      rcases h with h | h
      · exact absurd h hk
      · rw [ih h]

theorem mem_keys_setAssoc {κ ν : Type} [DecidableEq κ]
    (l : List (κ × ν)) (k q : κ) (v : ν) :
    q ∈ assocKeys (setAssoc l k v) ↔ q = k ∨ q ∈ assocKeys l := by
  induction l with
  | nil => simp [setAssoc, assocKeys]
  | cons hd t ih =>
    obtain ⟨k', v'⟩ := hd
    by_cases hk : k = k'
    · subst hk
      rw [setAssoc_cons_self, assocKeys_cons, assocKeys_cons]
      simp only [List.mem_cons]
      tauto
    · rw [setAssoc_cons_ne _ _ _ hk, assocKeys_cons, assocKeys_cons]
      simp only [List.mem_cons, ih]
      tauto

theorem nodup_keys_setAssoc {κ ν : Type} [DecidableEq κ]
    (l : List (κ × ν)) (k : κ) (v : ν) (h : (assocKeys l).Nodup) :
    (assocKeys (setAssoc l k v)).Nodup := by
  induction l with
  | nil => simp [setAssoc, assocKeys]
  | cons hd t ih =>
    obtain ⟨k', v'⟩ := hd
    rw [assocKeys_cons, List.nodup_cons] at h
    by_cases hk : k = k'
    · subst hk
      rw [setAssoc_cons_self, assocKeys_cons, List.nodup_cons]
      exact h
    · rw [setAssoc_cons_ne _ _ _ hk, assocKeys_cons, List.nodup_cons]
      refine ⟨?_, ih h.2⟩
      intro hmem
      rcases (mem_keys_setAssoc t k k' v).mp hmem with h1 | h1
      · exact hk h1.symm
      · exact h.1 h1

theorem lookupAssoc_cons_self {κ ν : Type} [DecidableEq κ]
    (k : κ) (v : ν) (t : List (κ × ν)) : lookupAssoc ((k, v) :: t) k = some v := by
  simp [lookupAssoc]

theorem lookupAssoc_cons_ne {κ ν : Type} [DecidableEq κ]
    {k q : κ} (v : ν) (t : List (κ × ν)) (h : q ≠ k) :
    lookupAssoc ((k, v) :: t) q = lookupAssoc t q := by
  simp [lookupAssoc, h]

namespace Rocks

/-! ## Data model (from `src/catalog/rocks/catalog.go`) -/

/-- `Path` represents a logical path for an entry (source: `type Path string`). -/
abbrev Path := String

/-- `Ref` could be a commit ID, a branch name, a tag (source: `type Ref string`). -/
abbrev Ref := String

/-- `CommitID` is a content-addressable hash representing a `Commit` object
(source: `type CommitID string`). -/
abbrev CommitID := String

/-- `BranchID` is an identifier for a branch (source: `type BranchID string`). -/
abbrev BranchID := String

/-- `TreeID` represents a snapshot of the tree, referenced by a commit
(source: `type TreeID string`). -/
abbrev TreeID := String

/-- `StagingToken` represents a namespace for writes to apply as uncommitted
(source: `type StagingToken string`).  The token is opaque; it is embedded as
a `Nat` drawn from a counter so that freshness of newly allocated tokens is
expressible. -/
abbrev StagingToken := Nat

/-- `DiffType` represents a changed state for a given entry
(source: `DiffTypeAdded | DiffTypeRemoved | DiffTypeChanged | DiffTypeConflict`). -/
inductive DiffType where
  | added
  | removed
  | changed
  | conflict
deriving DecidableEq, Repr

/-- `Entry` represents metadata of a given object (source struct `Entry`:
`LastModified time.Time; Address string; Metadata map[string]string; ETag string`).
The timestamp is embedded as a `Nat`, the metadata map as an association list. -/
structure Entry where
  lastModified : Nat
  address : String
  metadata : List (String × String)
  etag : String
deriving DecidableEq, Repr

/-- Source: `func (e *Entry) IsTombstone() bool { return e == nil }` — a nil
entry pointer (here `none`) marks a staged deletion. -/
def isTombstone (e : Option Entry) : Bool := e.isNone

/-- `Commit` represents commit metadata (source struct `Commit`: `Committer`,
`Message`, `TreeID`, `CreationDate`, `Parents`, `Metadata`).  There is no id
field; the id is the canonical hash, computed by `commitIdOf`. -/
structure Commit where
  committer : String
  message : String
  treeID : TreeID
  creationDate : Nat
  parents : List CommitID
  metadata : List (String × String)
deriving DecidableEq, Repr

/-- `Branch` is a pointer to a commit plus the branch's current staging token
(source struct `Branch`: `CommitID CommitID; stagingToken StagingToken`). -/
structure Branch where
  commitID : CommitID
  stagingToken : StagingToken
deriving DecidableEq, Repr

/-- `Diff` represents a change in path (source struct `Diff`). -/
structure Diff where
  path : Path
  type : DiffType
deriving DecidableEq, Repr

/-- Value equality of entries.  Modelled from the spec: "Entry equality is
value-equality over (address, ETag, metadata, last-modified is *not* part of
equality)". -/
def Entry.veq (a b : Entry) : Bool :=
  a.address == b.address && a.etag == b.etag && a.metadata == b.metadata

/-- Value equality lifted to optional entries (absent = absent). -/
def oveq : Option Entry → Option Entry → Bool
  | none, none => true
  | some a, some b => a.veq b
  | _, _ => false

/-! ## Canonical serialization and content addressing

Modelled from the spec: "Commit serialization (for hashing). Canonical,
deterministic encoding of fields in a fixed order: `id` is omitted from the
hashed bytes; `committer`, `message`, `creation_date`, `meta_range_id` /
TreeID, `metadata` (sorted by key), `parents`".  The collision-resistant hash
is embedded as the canonical byte string itself (an injective encoding), so
"equal contents ⇒ equal ID" is literal. -/

/-- Length-delimited string encoding (unambiguous concatenation). -/
def encStr (s : String) : String := toString s.length ++ "#" ++ s

/-- Encoding of a natural-number field. -/
def encNat (n : Nat) : String := toString n ++ "#"

/-- Encoding of one metadata key/value pair. -/
def encPair (p : String × String) : String := encStr p.1 ++ encStr p.2

/-- Canonical order on metadata pairs: by key, then by value. -/
def metaLe (p q : String × String) : Prop :=
  p.1 < q.1 ∨ (p.1 = q.1 ∧ p.2 ≤ q.2)

instance : DecidableRel metaLe := fun p q => by
  unfold metaLe
  infer_instance

instance : IsTotal (String × String) metaLe where
  total p q := by
    rcases lt_trichotomy p.1 q.1 with h | h | h
    · exact Or.inl (Or.inl h)
    · rcases le_total p.2 q.2 with h2 | h2
      · exact Or.inl (Or.inr ⟨h, h2⟩)
      · exact Or.inr (Or.inr ⟨h.symm, h2⟩)
    · exact Or.inr (Or.inl h)

instance : IsTrans (String × String) metaLe where
  trans a b c hab hbc := by
    rcases hab with hab | ⟨hab1, hab2⟩
    · rcases hbc with hbc | ⟨hbc1, hbc2⟩
      · exact Or.inl (lt_trans hab hbc)
      · exact Or.inl (hbc1 ▸ hab)
    · rcases hbc with hbc | ⟨hbc1, hbc2⟩
      · exact Or.inl (hab1 ▸ hbc)
      · exact Or.inr ⟨hab1.trans hbc1, le_trans hab2 hbc2⟩

instance : IsAntisymm (String × String) metaLe where
  antisymm a b hab hba := by
    rcases hab with hab | ⟨hab1, hab2⟩
    · rcases hba with hba | ⟨hba1, hba2⟩
      · exact absurd hba (lt_asymm hab)
      · exact absurd hab (hba1 ▸ lt_irrefl _)
    · rcases hba with hba | ⟨hba1, hba2⟩
      · exact absurd hba (hab1 ▸ lt_irrefl _)
      · exact Prod.ext hab1 (le_antisymm hab2 hba2)

/-- Canonical form of a metadata map: pairs sorted by key (value as
tie-break), as the spec's "metadata (sorted by key, UTF-8 pairs)". -/
def canonMeta (m : List (String × String)) : List (String × String) :=
  List.insertionSort metaLe m

/-- `RefManager.AddCommit` computes the canonical hash of the commit.
Modelled from the spec: "AddCommit(commit) → CommitID — computes the
canonical hash, stores the record, returns the ID." -/
def commitIdOf (c : Commit) : CommitID :=
  "c:" ++ encStr c.committer ++ encStr c.message ++ encNat c.creationDate
    ++ encStr c.treeID ++ encNat c.parents.length
    ++ String.join (c.parents.map encStr)
    ++ String.join ((canonMeta c.metadata).map encPair)

/-- Canonical encoding of one entry as stored in a committed tree. -/
def encEntry (e : Entry) : String :=
  encNat e.lastModified ++ encStr e.address ++ encStr e.etag
    ++ String.join ((canonMeta e.metadata).map encPair)

/-- Content address of a tree: the canonical serialization of its ordered
(path, entry) contents.  Modelled from the spec: "TreeID = content hash",
"equal contents ⇒ equal ID". -/
def treeIdOf (t : List (Path × Entry)) : TreeID :=
  "t:" ++ encNat t.length ++ String.join (t.map fun pe => encStr pe.1 ++ encEntry pe.2)

theorem canonMeta_perm_eq {m1 m2 : List (String × String)} (h : m1.Perm m2) :
    canonMeta m1 = canonMeta m2 :=
  List.eq_of_perm_of_sorted
    ((List.perm_insertionSort metaLe m1).trans (h.trans (List.perm_insertionSort metaLe m2).symm))
    (List.sorted_insertionSort metaLe m1) (List.sorted_insertionSort metaLe m2)

/-! ## CommittedManager.Apply -/

/-- One overlay applied to tree contents: an entry overwrites, a tombstone
removes.  Modelled from the spec: "For a given path, the overlay wins; a
tombstone removes the path; entries whose path is absent from both inputs
are dropped silently." -/
def apply1 (t : List (Path × Entry)) (p : Path) (oe : Option Entry) : List (Path × Entry) :=
  match oe with
  | some e => setAssoc t p e
  | none => removeAssoc t p

/-- Merging a change stream (pairs of path and entry-or-tombstone) onto tree
contents.  Modelled from the spec: "Apply(ns, treeID, changes) → newTreeID —
merges a sorted stream of (path, entry | tombstone) overlays onto treeID." -/
def applyChanges (t : List (Path × Entry)) (changes : List (Path × Option Entry)) :
    List (Path × Entry) :=
  changes.foldl (fun acc pe => apply1 acc pe.1 pe.2) t

/-- `CommittedManager.Apply` itself: read the tree by id from the
content-addressed tree store, merge the change stream, address the result. -/
def applyTree (trees : List (TreeID × List (Path × Entry))) (tid : TreeID)
    (changes : List (Path × Option Entry)) : Option TreeID :=
  (lookupAssoc trees tid).map fun t => treeIdOf (applyChanges t changes)

theorem lookupAssoc_applyChanges (t : List (Path × Entry))
    (changes : List (Path × Option Entry)) (p : Path)
    (h : (assocKeys changes).Nodup) :
    lookupAssoc (applyChanges t changes) p =
      match lookupAssoc changes p with
      | some (some e) => some e
      | some none => none
      | none => lookupAssoc t p := by
  induction changes generalizing t with
  | nil => rfl
  | cons hd rest ih =>
    obtain ⟨q, oe⟩ := hd
    rw [assocKeys_cons, List.nodup_cons] at h
    have hstep : applyChanges t ((q, oe) :: rest) = applyChanges (apply1 t q oe) rest := rfl
    rw [hstep, ih _ h.2]
    by_cases hpq : p = q
    · subst hpq
      rw [lookupAssoc_eq_none_of_not_mem_keys h.1, lookupAssoc_cons_self]
      cases oe with
      | some e => exact lookupAssoc_setAssoc_self t p e
      | none => exact lookupAssoc_removeAssoc_self t p
    · rw [lookupAssoc_cons_ne _ _ hpq]
      cases hrest : lookupAssoc rest p with
      | some o => cases o <;> rfl
      | none =>
        cases oe with
        | some e => exact lookupAssoc_setAssoc_ne t q p e hpq
        | none => exact lookupAssoc_removeAssoc_ne t q p hpq


/-! ## CommittedManager.Diff -/

/-- Per-path three-way classification of a diff computed from `left` toward
`right` against the common-ancestor `base`.  Modelled from the spec:
"present in right only, absent in left and base → Added; absent in right,
present in left → Removed; present in both and differ → Changed if one side
equals base; Conflict if both differ from base and from each other; equal in
left and right → not yielded." -/
def classify (l r b : Option Entry) : Option DiffType :=
  if oveq l r then none
  else if r.isNone then some .removed
  else if l.isNone && b.isNone then some .added
  else if oveq l b || oveq r b then some .changed
  else some .conflict

/-- The diff stream between two trees relative to a base tree: every path of
any of the three trees, classified; unclassified (equal) paths are not
yielded.  Modelled from the spec's `Diff(ns, left, right, base, from)`. -/
def diffTrees (l r b : List (Path × Entry)) : List Diff :=
  ((assocKeys l ++ assocKeys r ++ assocKeys b).dedup).filterMap fun p =>
    (classify (lookupAssoc l p) (lookupAssoc r p) (lookupAssoc b p)).map fun d =>
      { path := p, type := d }

theorem classify_none_of_all_none : classify none none none = none := by
  simp [classify, oveq]

theorem mem_diffTrees (l r b : List (Path × Entry)) (p : Path) (d : DiffType) :
    ({ path := p, type := d } : Diff) ∈ diffTrees l r b ↔
      classify (lookupAssoc l p) (lookupAssoc r p) (lookupAssoc b p) = some d := by
  unfold diffTrees
  rw [List.mem_filterMap]
  constructor
  · rintro ⟨q, hq, hcl⟩
    rcases Option.map_eq_some'.mp hcl with ⟨d', hd', heq⟩
    cases heq
    exact hd'
  · intro hcl
    refine ⟨p, ?_, by rw [hcl]; rfl⟩
    rw [List.mem_dedup]
    by_contra hnp
    simp only [List.mem_append] at hnp
    push_neg at hnp
    rw [lookupAssoc_eq_none_of_not_mem_keys hnp.1.1,
      lookupAssoc_eq_none_of_not_mem_keys hnp.1.2,
      lookupAssoc_eq_none_of_not_mem_keys hnp.2, classify_none_of_all_none] at hcl
    exact Option.noConfusion hcl

/-! ## CommittedManager.Merge (three-way merge of trees) -/

/-- Three-way merge of tree contents.  Modelled from the spec: "Starts from
base; for each differing path classifies as above; applies right's changes
that are Added/Removed/Changed-on-right-only onto left; fails with a
Conflict error enumerating conflicting paths." -/
def mergeTrees (l r b : List (Path × Entry)) :
    Except (List Path) (List (Path × Entry)) :=
  let ks := (assocKeys l ++ assocKeys r ++ assocKeys b).dedup
  let conflicts := ks.filter fun p =>
    decide (classify (lookupAssoc l p) (lookupAssoc r p) (lookupAssoc b p) = some .conflict)
  if conflicts.isEmpty then
    .ok (ks.filterMap fun p =>
      (if oveq (lookupAssoc r p) (lookupAssoc b p) then lookupAssoc l p
       else lookupAssoc r p).map fun e => (p, e))
  else .error conflicts

/-! ## RefManager.FindMergeBase -/

/-- The parent CommitIDs of a commit in the commit store ([] if absent). -/
def parentsOf (commits : List (CommitID × Commit)) (c : CommitID) : List CommitID :=
  ((lookupAssoc commits c).map Commit.parents).getD []

/-- One expansion step of the ancestor walk: add every parent of every
frontier commit. -/
def ancStep (commits : List (CommitID × Commit)) (s : List CommitID) : List CommitID :=
  (s ++ s.flatMap (parentsOf commits)).dedup

/-- Iterated expansion with fuel (the store is finite, so `commits.length`
steps of expansion reach every ancestor). -/
def ancIter (commits : List (CommitID × Commit)) : Nat → List CommitID → List CommitID
  | 0, s => s
  | n + 1, s => ancIter commits n (ancStep commits s)

/-- All ancestors of a commit, itself included (reflexive reachability over
parent edges, as in `git merge-base` ancestry). -/
def ancestors (commits : List (CommitID × Commit)) (c : CommitID) : List CommitID :=
  ancIter commits commits.length [c]

/-- Decidable ancestry check: is `anc` an ancestor of `c` (or `c` itself)? -/
def isAncestor (commits : List (CommitID × Commit)) (anc c : CommitID) : Bool :=
  decide (anc ∈ ancestors commits c)

/-- Deterministic tie-break on candidate merge bases.  Modelled from the
spec: "ties broken by creation time, then by CommitID byte order for
determinism". -/
def betterBase (commits : List (CommitID × Commit)) (c d : CommitID) : Bool :=
  let kc := ((lookupAssoc commits c).map Commit.creationDate).getD 0
  let kd := ((lookupAssoc commits d).map Commit.creationDate).getD 0
  kc < kd || (kc == kd && c < d)

/-- One fold step of the deterministic candidate selection. -/
def pickStep (commits : List (CommitID × Commit)) (acc : Option CommitID)
    (c : CommitID) : Option CommitID :=
  match acc with
  | none => some c
  | some d => if betterBase commits c d then some c else some d

/-- Pick the deterministic representative of a candidate list. -/
def pickBase (commits : List (CommitID × Commit)) (l : List CommitID) : Option CommitID :=
  l.foldl (pickStep commits) none

/-- The common ancestors of `a` and `b` recorded in the commit store. -/
def mbCands (commits : List (CommitID × Commit)) (a b : CommitID) : List CommitID :=
  (assocKeys commits).filter fun c => isAncestor commits c a && isAncestor commits c b

/-- The *lowest* common ancestors: those with no strict descendant that is
also a common ancestor. -/
def mbMinimal (commits : List (CommitID × Commit)) (a b : CommitID) : List CommitID :=
  (mbCands commits a b).filter fun c =>
    !((mbCands commits a b).any fun d => (d != c) && isAncestor commits c d)

/-- `RefManager.FindMergeBase`.  Modelled from the spec: "the *lowest common
ancestor* in the commit DAG: a commit reachable from both that has no
descendant with that property … Returns NotFound when the two commits share
no ancestor (disjoint histories)."  Ties are broken deterministically by
`pickBase`. -/
def findMergeBase (commits : List (CommitID × Commit)) (a b : CommitID) : Option CommitID :=
  pickBase commits (mbMinimal commits a b)

/-! ## System state and the Catalog orchestrator

Modelled from the spec (§2, §4.3, §4.4) for a single repository: branch
records (RefManager), the commit table keyed by canonical hash (RefManager),
the content-addressed tree store (CommittedManager), and the per-token
staging overlays with a freshness counter (StagingManager).  A staged `none`
entry is a tombstone. -/
structure CatalogState where
  branches : List (BranchID × Branch)
  commits : List (CommitID × Commit)
  trees : List (TreeID × List (Path × Entry))
  staging : List (StagingToken × List (Path × Option Entry))
  tokenCounter : Nat
deriving Repr

/-- The catalog-level error kinds used by the claims (spec §7). -/
inductive CatErr where
  | notFound
  | nothingToCommit
  | conflict (paths : List Path)
  | invalidRef
deriving DecidableEq, Repr

/-- The overlay stored under a staging token (empty when the token holds no
changes). -/
def stagingOf (st : CatalogState) (tok : StagingToken) : List (Path × Option Entry) :=
  (lookupAssoc st.staging tok).getD []

/-- `StagingManager.SetEntry`-style write: modelled from the spec, a write
"goes under the branch's *current* token (implicitly resolved); nil means
tombstone". -/
def writeStaging (st : CatalogState) (b : BranchID) (p : Path) (oe : Option Entry) :
    Option CatalogState :=
  (lookupAssoc st.branches b).map fun br =>
    { st with
      staging := setAssoc st.staging br.stagingToken
          (setAssoc (stagingOf st br.stagingToken) p oe) }

/-- `Catalog.SetEntry`: stage an entry write on a branch. -/
def setEntry (st : CatalogState) (b : BranchID) (p : Path) (e : Entry) : Option CatalogState :=
  writeStaging st b p (some e)

/-- `Catalog.DeleteEntry`: stage a tombstone on a branch.  Modelled from the
spec: "DeleteEntry(repo, branch, path) — equivalent to SetEntry(..., nil) at
the current token." -/
def deleteEntry (st : CatalogState) (b : BranchID) (p : Path) : Option CatalogState :=
  writeStaging st b p none

/-- `CommittedManager.GetEntry` on a tree id: point read from the
content-addressed tree store. -/
def committedGetEntry (trees : List (TreeID × List (Path × Entry))) (tid : TreeID)
    (p : Path) : Except CatErr Entry :=
  match lookupAssoc trees tid with
  | none => .error .notFound
  | some t =>
    match lookupAssoc t p with
    | some e => .ok e
    | none => .error .notFound

/-- Committed read through a commit: load the commit, then
`CommittedManager.GetEntry` on its TreeID (spec read path, step 3). -/
def committedRead (st : CatalogState) (cid : CommitID) (p : Path) : Except CatErr Entry :=
  match lookupAssoc st.commits cid with
  | none => .error .notFound
  | some c => committedGetEntry st.trees c.treeID p

/-- `Catalog.GetEntry` with a branch ref.  Modelled from the spec read path:
"If ref is a branch, consult StagingManager first with the branch's current
token: a stored Entry returns that entry; a tombstone returns NotFound;
absence falls through.  Load the commit, then CommittedManager.GetEntry on
its TreeID." -/
def getEntry (st : CatalogState) (b : BranchID) (p : Path) : Except CatErr Entry :=
  match lookupAssoc st.branches b with
  | none => .error .notFound
  | some br =>
    match lookupAssoc (stagingOf st br.stagingToken) p with
    | some (some e) => .ok e
    | some none => .error .notFound
    | none => committedRead st br.commitID p

/-- Caller-supplied commit fields (committer, message, timestamp, metadata);
the tree id and parents are computed by `commitOp`. -/
structure CommitMeta where
  committer : String
  message : String
  creationDate : Nat
  metadata : List (String × String)
deriving Repr

/-- `Catalog.Commit` on a branch.  Modelled from the spec (§4.4 Commit):
freeze the staging snapshot, Apply it over the current tree, AddCommit with
parents = [current tip], advance the branch to the new commit with a fresh
staging token, drop the old token's storage.  "If no staged changes exist,
commit fails with NothingToCommit and leaves state untouched." -/
def commitOp (st : CatalogState) (b : BranchID) (m : CommitMeta) :
    Except CatErr (CommitID × CatalogState) :=
  match lookupAssoc st.branches b with
  | none => .error .notFound
  | some br =>
    let staged := stagingOf st br.stagingToken
    if staged.isEmpty then .error .nothingToCommit
    else
      match lookupAssoc st.commits br.commitID with
      | none => .error .notFound
      | some c =>
        match lookupAssoc st.trees c.treeID with
        | none => .error .notFound
        | some t =>
          let newContents := applyChanges t staged
          let newTreeID := treeIdOf newContents
          let nc : Commit :=
            { committer := m.committer, message := m.message, treeID := newTreeID,
              creationDate := m.creationDate, parents := [br.commitID],
              metadata := m.metadata }
          let ncid := commitIdOf nc
          let newTok := st.tokenCounter
          .ok (ncid,
            { branches := setAssoc st.branches b { commitID := ncid, stagingToken := newTok },
              commits := setAssoc st.commits ncid nc,
              trees := setAssoc st.trees newTreeID newContents,
              staging := setAssoc (removeAssoc st.staging br.stagingToken) newTok [],
              tokenCounter := st.tokenCounter + 1 })

/-- The observable transition of `Catalog.Commit`: on failure the state is
unchanged (a failed commit is transactional per the spec: "mid-operation
storage errors abort and leave no persistent change"). -/
def commitStep (st : CatalogState) (b : BranchID) (m : CommitMeta) :
    CatalogState × Except CatErr CommitID :=
  match commitOp st b m with
  | .ok (cid, st') => (st', .ok cid)
  | .error e => (st, .error e)

/-- `StagingManager.Snapshot`.  Modelled from the spec: "atomically allocates
a fresh token, redirects all future writes for branch to it, and returns the
old token (now frozen, still readable)." -/
def snapshot (st : CatalogState) (b : BranchID) : Option (StagingToken × CatalogState) :=
  (lookupAssoc st.branches b).map fun br =>
    (br.stagingToken,
      { st with
        branches := setAssoc st.branches b
          { commitID := br.commitID, stagingToken := st.tokenCounter },
        staging := setAssoc st.staging st.tokenCounter [],
        tokenCounter := st.tokenCounter + 1 })

/-- `StagingManager.ListSnapshot` on a frozen token: the token's overlay,
tombstones included (spec: "same as ListEntries on a frozen token"). -/
def listSnapshot (st : CatalogState) (tok : StagingToken) : List (Path × Option Entry) :=
  stagingOf st tok

/-- Well-formedness of token allocation: every token ever handed out is
below the freshness counter. -/
def tokensWF (st : CatalogState) : Prop :=
  (∀ pr ∈ st.branches, pr.2.stagingToken < st.tokenCounter) ∧
    (∀ pr ∈ st.staging, pr.1 < st.tokenCounter)

/-- `RefManager.Dereference` restricted to the ref kinds the claims use.
Modelled from the spec: "Precedence: exact commit hash match > branch id". -/
def deref (st : CatalogState) (r : Ref) : Option CommitID :=
  match lookupAssoc st.commits r with
  | some _ => some r
  | none => (lookupAssoc st.branches r).map Branch.commitID

/-- `Catalog.Merge(from, to)`.  Modelled from the spec (§4.4 Merge): resolve
both refs; find the merge base; "Fast-forward: if base == T, advance branch
`to` to F (no new commit).  If base == F, no-op (already merged)."; otherwise
three-way merge the trees, record a merge commit with parents = [T, F] and
advance `to`. -/
def mergeOp (st : CatalogState) (fromRef : Ref) (toBranch : BranchID) (m : CommitMeta) :
    Except CatErr CatalogState :=
  match deref st fromRef with
  | none => .error .invalidRef
  | some f =>
    match lookupAssoc st.branches toBranch with
    | none => .error .notFound
    | some toBr =>
      match findMergeBase st.commits f toBr.commitID with
      | none => .error .notFound
      | some base =>
        if base = toBr.commitID then
          .ok { st with
                branches := setAssoc st.branches toBranch
                    { commitID := f, stagingToken := toBr.stagingToken } }
        else if base = f then .ok st
        else
          match lookupAssoc st.commits toBr.commitID, lookupAssoc st.commits f,
              lookupAssoc st.commits base with
          | some ct, some cf, some cb =>
            match lookupAssoc st.trees ct.treeID, lookupAssoc st.trees cf.treeID,
                lookupAssoc st.trees cb.treeID with
            | some tl, some tr, some tb =>
              match mergeTrees tl tr tb with
              | .error ps => .error (.conflict ps)
              | .ok nt =>
                let ntid := treeIdOf nt
                let nc : Commit :=
                  { committer := m.committer, message := m.message, treeID := ntid,
                    creationDate := m.creationDate, parents := [toBr.commitID, f],
                    metadata := m.metadata }
                let ncid := commitIdOf nc
                .ok { st with
                  branches := setAssoc st.branches toBranch
                    { commitID := ncid, stagingToken := toBr.stagingToken },
                  commits := setAssoc st.commits ncid nc,
                  trees := setAssoc st.trees ntid nt }
            | _, _, _ => .error .notFound
          | _, _, _ => .error .notFound

/-! ## The iterator protocol

Source comment (`catalog.go`): "Calling SeekGE() returns true, like calling
Next() — we can process Value() when true and check Err() in case of false.
When Next() or SeekGE() returns false (doesn't matter if it because of an
error) calling Value() should return nil."  The five iterator interfaces
(`RepositoryIterator`, `EntryIterator`, `DiffIterator`, `BranchIterator`,
`CommitIterator`) all follow this protocol at different element types, so
the model is generic in the element type `α` and the seek-key type `κ`. -/
structure Iter (α : Type) where
  items : List α
  cur : Option α
  errFlag : Bool
deriving Repr

/-- `Value()`: the current element, `nil` (`none`) when the iterator is not
positioned on one. -/
def Iter.value {α : Type} (it : Iter α) : Option α := it.cur

/-- `Next()`: advance; returns false on exhaustion or on a latched error,
clearing the current element. -/
def Iter.next {α : Type} (it : Iter α) : Bool × Iter α :=
  if it.errFlag then (false, { it with cur := none })
  else
    match it.items with
    | [] => (false, { it with cur := none })
    | x :: rest => (true, { items := rest, cur := some x, errFlag := false })

/-- `SeekGE(k)`: fast-forward past elements whose key is below `k`, then act
like `Next()`; `ge x k` decides "key of `x` is ≥ `k`". -/
def Iter.seekGE {α κ : Type} (ge : α → κ → Bool) (it : Iter α) (k : κ) : Bool × Iter α :=
  Iter.next { it with items := it.items.dropWhile fun x => !(ge x k) }

end Rocks

namespace Index

/-! ## `KVMultipartManager` (source: `src/unnamed/part_000`, package `index`)

This part is embedded from the real code.  The transactional KV store is
embedded as explicit state; `tx.Read…`/`tx.Write…` become association-list
operations; Go errors become an error inductive.  Part numbers are Go `int`,
embedded as `Int`. -/

/-- Source: `MaxPartsInMultipartUpload = 10000`. -/
def MaxPartsInMultipartUpload : Int := 10000

/-- Source: `MinPartInMultipartUpload = 1`. -/
def MinPartInMultipartUpload : Int := 1

/-- Source `model.MultipartUpload`: `Path`, `Id`, `Timestamp`. -/
structure MultipartUpload where
  path : String
  id : String
  timestamp : Int
deriving DecidableEq, Repr

/-- Source `model.Blob` (list of block references, abstracted to a string
payload — its contents are never inspected by the manager). -/
structure Blob where
  payload : String
deriving DecidableEq, Repr

/-- One stored part of a multipart upload (source `model.MultipartUploadPart`:
`Blob`, `Timestamp`, `Size`). -/
structure MultipartUploadPart where
  blob : Blob
  timestamp : Int
  size : Int
deriving DecidableEq, Repr

/-- An object reachable from a branch's commit root (source `model.Object`,
as read by `merkle.GetObject`): its blob and size. -/
structure Obj where
  blob : Blob
  size : Int
deriving DecidableEq, Repr

/-- The slice of repository KV state the multipart manager touches:
uploads by id, parts by (upload id, part number), branches by name
(holding a commit root), and objects by (commit root, path). -/
structure MPState where
  uploads : List (String × MultipartUpload)
  parts : List ((String × Int) × MultipartUploadPart)
  branches : List (String × String)
  objects : List ((String × String) × Obj)
deriving Repr

/-- Error kinds surfaced by the embedded code paths (`errors.ErrMultipart…`,
plus not-found from `tx.Read…`). -/
inductive MPErr where
  | notFound
  | pathMismatch
  | invalidPartNumber
deriving DecidableEq, Repr

/-- Go's `strings.EqualFold` restricted to simple case folding: the two
strings are equal after folding each character to lower case. -/
def equalFold (s t : String) : Bool :=
  s.data.map Char.toLower == t.data.map Char.toLower

/-- `KVMultipartManager.UploadPart` (source lines 64-82): read the upload
record (not-found propagates), check the path matches case-insensitively,
validate `partNumber < MinPartInMultipartUpload || partNumber >=
MaxPartsInMultipartUpload`, then write the part. -/
def uploadPart (st : MPState) (path uploadId : String) (partNumber : Int)
    (part : MultipartUploadPart) : Except MPErr MPState :=
  match lookupAssoc st.uploads uploadId with
  | none => .error .notFound
  | some mpu =>
    if !(equalFold mpu.path path) then .error .pathMismatch
    else if partNumber < MinPartInMultipartUpload ∨
        MaxPartsInMultipartUpload ≤ partNumber then .error .invalidPartNumber
    else .ok { st with parts := setAssoc st.parts (uploadId, partNumber) part }

/-- `KVMultipartManager.CopyPart` (source lines 84-120): same upload/path/part
checks, then read the source branch, read the object at the source path under
the branch's commit root, and store its blob and size as the part. -/
def copyPart (st : MPState) (path uploadId : String) (partNumber : Int)
    (sourcePath sourceBranch : String) (uploadTime : Int) : Except MPErr MPState :=
  match lookupAssoc st.uploads uploadId with
  | none => .error .notFound
  | some mpu =>
    if !(equalFold mpu.path path) then .error .pathMismatch
    else if partNumber < MinPartInMultipartUpload ∨
        MaxPartsInMultipartUpload ≤ partNumber then .error .invalidPartNumber
    else
      match lookupAssoc st.branches sourceBranch with
      | none => .error .notFound
      | some commitRoot =>
        match lookupAssoc st.objects (commitRoot, sourcePath) with
        | none => .error .notFound
        | some obj =>
          .ok { st with
                parts := setAssoc st.parts (uploadId, partNumber)
                    { blob := obj.blob, timestamp := uploadTime, size := obj.size } }

end Index

/-! ## Claim theorems -/

open Rocks Index

theorem iter_next_false_value_none {α : Type} (it : Iter α) :
    (Iter.next it).1 = false → (Iter.next it).2.value = none := by
  unfold Iter.next
  by_cases he : it.errFlag
  · simp [he, Iter.value]
  · cases hi : it.items with
    | nil => simp [he, hi, Iter.value]
    | cons x rest => simp [he, hi]

/-- Claim C9: for every catalog iterator (the five iterator interfaces all
follow the modelled protocol), once `Next()` or `SeekGE()` has returned
false — whether from exhaustion or from a latched error — a subsequent call
to `Value()` returns nil. -/
theorem C9_iterator_value_nil_after_false {α κ : Type} (ge : α → κ → Bool)
    (it : Iter α) (k : κ) :
    ((Iter.next it).1 = false → (Iter.next it).2.value = none) ∧
      ((Iter.seekGE ge it k).1 = false → (Iter.seekGE ge it k).2.value = none) :=
  ⟨iter_next_false_value_none it, iter_next_false_value_none _⟩

/-- Witness for C9 at a concrete iterator: an exhausted `Iter Nat` whose
`Next()` and `SeekGE(5)` return false, and whose `Value()` is then nil. -/
theorem C9_witness :
    (Iter.next { items := ([] : List Nat), cur := some 7, errFlag := false }).2.value = none ∧
      (Iter.seekGE (fun (x k : Nat) => decide (k ≤ x))
        { items := ([] : List Nat), cur := some 7, errFlag := false } 5).2.value = none :=
  ⟨(C9_iterator_value_nil_after_false (fun (x k : Nat) => decide (k ≤ x))
      { items := [], cur := some 7, errFlag := false } 5).1 (by decide),
   (C9_iterator_value_nil_after_false (fun (x k : Nat) => decide (k ≤ x))
      { items := [], cur := some 7, errFlag := false } 5).2 (by decide)⟩

/-- Claim C10: for `KVMultipartManager.UploadPart`/`CopyPart`, when the
upload record exists and the given path matches the stored upload's path,
the call fails with `ErrMultipartInvalidPartNumber` exactly when
`partNumber < 1` or `partNumber >= 10000` — so part number 10000 is
rejected even though `MaxPartsInMultipartUpload` is 10000. -/
theorem C10_part_number_bound (st : MPState) (path uploadId : String)
    (partNumber : Int) (part : MultipartUploadPart)
    (sourcePath sourceBranch : String) (uploadTime : Int)
    (mpu : MultipartUpload)
    (hup : lookupAssoc st.uploads uploadId = some mpu)
    (hpath : equalFold mpu.path path = true) :
    (uploadPart st path uploadId partNumber part = .error .invalidPartNumber ↔
        partNumber < 1 ∨ 10000 ≤ partNumber) ∧
      (copyPart st path uploadId partNumber sourcePath sourceBranch uploadTime =
          .error .invalidPartNumber ↔ partNumber < 1 ∨ 10000 ≤ partNumber) ∧
      MaxPartsInMultipartUpload = 10000 := by
  have hbound : (partNumber < MinPartInMultipartUpload ∨
      MaxPartsInMultipartUpload ≤ partNumber) ↔ (partNumber < 1 ∨ 10000 ≤ partNumber) := by
    rw [MinPartInMultipartUpload, MaxPartsInMultipartUpload]
  refine ⟨?_, ?_, rfl⟩
  · unfold uploadPart
    rw [hup]
    dsimp only
    rw [hpath]
    by_cases hc : partNumber < MinPartInMultipartUpload ∨ MaxPartsInMultipartUpload ≤ partNumber
    · simp only [Bool.not_true, Bool.false_eq_true, if_false, if_pos hc]
      simpa using hbound.mp hc
    · simp only [Bool.not_true, Bool.false_eq_true, if_false, if_neg hc]
      constructor
      · intro h
        exact absurd h (by simp)
      · intro h
        exact absurd (hbound.mpr h) hc
  · unfold copyPart
    rw [hup]
    dsimp only
    rw [hpath]
    by_cases hc : partNumber < MinPartInMultipartUpload ∨ MaxPartsInMultipartUpload ≤ partNumber
    · simp only [Bool.not_true, Bool.false_eq_true, if_false, if_pos hc]
      simpa using hbound.mp hc
    · simp only [Bool.not_true, Bool.false_eq_true, if_false, if_neg hc]
      constructor
      · intro h
        rcases hb : lookupAssoc st.branches sourceBranch with _ | root
        · rw [hb] at h
          simp at h
        · rw [hb] at h
          dsimp only at h
          rcases ho : lookupAssoc st.objects (root, sourcePath) with _ | obj
          · rw [ho] at h
            simp at h
          · rw [ho] at h
            simp at h
      · intro h
        exact absurd (hbound.mpr h) hc

/-- Concrete multipart state for the C10 witness: one upload `u1` at path `P`. -/
def mpStateW : MPState :=
  { uploads := [("u1", { path := "P", id := "u1", timestamp := 0 })],
    parts := [], branches := [], objects := [] }

/-- Concrete part payload for the C10 witness. -/
def mpPartW : MultipartUploadPart :=
  { blob := { payload := "xyz" }, timestamp := 0, size := 3 }

/-- Witness for C10 at a concrete state: for the existing upload `u1` with a
case-insensitively matching path, part number 10000 is rejected by both
`UploadPart` and `CopyPart`, and the constant is 10000. -/
theorem C10_witness :
    (uploadPart mpStateW "p" "u1" 10000 mpPartW = .error .invalidPartNumber ↔
        (10000 : Int) < 1 ∨ (10000 : Int) ≤ 10000) ∧
      (copyPart mpStateW "p" "u1" 10000 "src" "dev" 7 = .error .invalidPartNumber ↔
        (10000 : Int) < 1 ∨ (10000 : Int) ≤ 10000) ∧
      MaxPartsInMultipartUpload = 10000 :=
  C10_part_number_bound mpStateW "p" "u1" 10000 mpPartW "src" "dev" 7
    { path := "P", id := "u1", timestamp := 0 } (by decide) (by decide)

/-- Claim C4: read path of `Catalog.GetEntry` when the ref is a branch: a
stored entry for the path in the branch's current staging token is returned;
a tombstone gives NotFound; absence falls through to
`CommittedManager.GetEntry` on the TreeID of the branch's current commit. -/
theorem C4_getEntry_read_path (st : CatalogState) (b : BranchID) (p : Path) (br : Branch)
    (hbr : lookupAssoc st.branches b = some br) :
    (∀ e, lookupAssoc (stagingOf st br.stagingToken) p = some (some e) →
        getEntry st b p = .ok e) ∧
      (lookupAssoc (stagingOf st br.stagingToken) p = some none →
        getEntry st b p = .error .notFound) ∧
      (lookupAssoc (stagingOf st br.stagingToken) p = none →
        ∀ c, lookupAssoc st.commits br.commitID = some c →
          getEntry st b p = committedGetEntry st.trees c.treeID p) := by
  refine ⟨?_, ?_, ?_⟩
  · intro e hst
    unfold getEntry
    rw [hbr]
    dsimp only
    rw [hst]
  · intro hst
    unfold getEntry
    rw [hbr]
    dsimp only
    rw [hst]
  · intro hst c hc
    unfold getEntry
    rw [hbr]
    dsimp only
    rw [hst]
    unfold committedRead
    rw [hc]

/-- Concrete entry for the catalog witnesses. -/
def entryA : Entry :=
  { lastModified := 1, address := "addr-a", metadata := [("k", "v")], etag := "ea" }

/-- Concrete root commit (empty tree) for the catalog witnesses. -/
def commit0 : Commit :=
  { committer := "ada", message := "init", treeID := treeIdOf [],
    creationDate := 0, parents := [], metadata := [] }

/-- Concrete catalog state for the C4 witness: branch `main` at `commit0`,
staging holds an entry at `a` and a tombstone at `d`. -/
def stC4 : CatalogState :=
  { branches := [("main", { commitID := "c0", stagingToken := 0 })],
    commits := [("c0", commit0)],
    trees := [(treeIdOf [], [])],
    staging := [(0, [("a", some entryA), ("d", none)])],
    tokenCounter := 1 }

/-- Witness for C4 at a concrete state: the staged entry at `a` is returned
and the tombstone at `d` yields NotFound. -/
theorem C4_witness :
    getEntry stC4 "main" "a" = .ok entryA ∧ getEntry stC4 "main" "d" = .error .notFound :=
  ⟨(C4_getEntry_read_path stC4 "main" "a" { commitID := "c0", stagingToken := 0 }
      (by decide)).1 entryA (by decide),
   (C4_getEntry_read_path stC4 "main" "d" { commitID := "c0", stagingToken := 0 }
      (by decide)).2.1 (by decide)⟩

/-- Claim C3: for every branch whose staging area holds no changes,
`Catalog.Commit` fails with `NothingToCommit` and returns the state
unchanged — in particular the branch's CommitID and staging token and the
tree and commit stores are exactly as before the call. -/
theorem C3_commit_empty_staging (st : CatalogState) (b : BranchID) (m : CommitMeta)
    (br : Branch) (hbr : lookupAssoc st.branches b = some br)
    (hempty : stagingOf st br.stagingToken = []) :
    commitStep st b m = (st, .error .nothingToCommit) := by
  unfold commitStep commitOp
  rw [hbr]
  dsimp only
  rw [hempty]
  rfl

/-- Concrete catalog state for the C3 witness: branch `main` with an empty
staging overlay. -/
def stC3 : CatalogState :=
  { branches := [("main", { commitID := "c0", stagingToken := 0 })],
    commits := [("c0", commit0)],
    trees := [(treeIdOf [], [])],
    staging := [(0, [])],
    tokenCounter := 1 }

/-- Witness for C3 at a concrete state: committing `main` with empty staging
fails with NothingToCommit and leaves the state intact. -/
theorem C3_witness :
    commitStep stC3 "main"
        { committer := "ada", message := "m", creationDate := 5, metadata := [] } =
      (stC3, .error .nothingToCommit) :=
  C3_commit_empty_staging stC3 "main" _ { commitID := "c0", stagingToken := 0 }
    (by decide) (by decide)

/-- Claim C1: content addressing is deterministic.  Two change streams with
equal canonical contents applied to trees with equal contents (possibly in
different stores under different ids) yield equal TreeIDs from
`CommittedManager.Apply`; and two commits with equal canonical fields
(committer, message, creation date, TreeID, parents, and metadata equal as a
map — i.e. up to pair order; there is no id field) yield equal CommitIDs
from `RefManager.AddCommit`. -/
theorem C1_content_addressing_deterministic
    (ts1 ts2 : List (TreeID × List (Path × Entry))) (t1 t2 : TreeID)
    (c : List (Path × Entry)) (ch : List (Path × Option Entry)) (c1 c2 : Commit)
    (h1 : lookupAssoc ts1 t1 = some c) (h2 : lookupAssoc ts2 t2 = some c)
    (hcm : c1.committer = c2.committer) (hms : c1.message = c2.message)
    (hcd : c1.creationDate = c2.creationDate) (htr : c1.treeID = c2.treeID)
    (hpar : c1.parents = c2.parents) (hmd : c1.metadata.Perm c2.metadata) :
    applyTree ts1 t1 ch = applyTree ts2 t2 ch ∧ commitIdOf c1 = commitIdOf c2 := by
  constructor
  · unfold applyTree
    rw [h1, h2]
  · unfold commitIdOf
    rw [hcm, hms, hcd, htr, hpar, canonMeta_perm_eq hmd]

/-- First commit for the C1 witness (metadata in one order). -/
def commitC1a : Commit :=
  { committer := "ada", message := "m", treeID := "t:0#", creationDate := 3,
    parents := ["par"], metadata := [("a", "1"), ("b", "2")] }

/-- Second commit for the C1 witness (same canonical fields, metadata pairs
in the other order). -/
def commitC1b : Commit :=
  { committer := "ada", message := "m", treeID := "t:0#", creationDate := 3,
    parents := ["par"], metadata := [("b", "2"), ("a", "1")] }

/-- Tree store for the C1 witness, holding contents `[("x", entryA)]` under
id `A`. -/
def treesC1a : List (TreeID × List (Path × Entry)) := [("A", [("x", entryA)])]

/-- A different tree store for the C1 witness, holding the same contents
under a different id `B`. -/
def treesC1b : List (TreeID × List (Path × Entry)) := [("Z", []), ("B", [("x", entryA)])]

/-- Witness for C1 at concrete inputs: applying the same change stream to
equal tree contents stored under different ids in different stores gives the
same TreeID, and the two permuted-metadata commits get the same CommitID. -/
theorem C1_witness :
    applyTree treesC1a "A" [("x", none)] = applyTree treesC1b "B" [("x", none)] ∧
      commitIdOf commitC1a = commitIdOf commitC1b :=
  C1_content_addressing_deterministic treesC1a treesC1b "A" "B" [("x", entryA)]
    [("x", none)] commitC1a commitC1b (by decide) (by decide) rfl rfl rfl rfl rfl
    (by decide)

/-- Claim C8: for every branch and its current staging token,
`StagingManager.Snapshot` allocates a fresh token (different from the
branch's token and from every token in the staging store), redirects all
future writes for the branch to the fresh token, and returns the old token,
which is thereafter frozen (writes after the snapshot do not change it) but
still readable via `ListSnapshot`. -/
theorem C8_snapshot_freezes_old_token (st : CatalogState) (b : BranchID) (br : Branch)
    (hbr : lookupAssoc st.branches b = some br) (hwf : tokensWF st) :
    (snapshot st b).isSome ∧
      ∀ tok' st', snapshot st b = some (tok', st') →
        tok' = br.stagingToken ∧
        lookupAssoc st'.branches b =
          some { commitID := br.commitID, stagingToken := st.tokenCounter } ∧
        br.stagingToken ≠ st.tokenCounter ∧
        (∀ pr ∈ st.staging, pr.1 ≠ st.tokenCounter) ∧
        listSnapshot st' br.stagingToken = stagingOf st br.stagingToken ∧
        (∀ p oe st'', writeStaging st' b p oe = some st'' →
          listSnapshot st'' br.stagingToken = stagingOf st br.stagingToken ∧
          lookupAssoc (stagingOf st'' st.tokenCounter) p = some oe) := by
  have hfresh : br.stagingToken ≠ st.tokenCounter :=
    Nat.ne_of_lt (hwf.1 (b, br) (lookupAssoc_mem hbr))
  constructor
  · unfold snapshot
    rw [hbr]
    rfl
  · intro tok' st' hsnap
    unfold snapshot at hsnap
    rw [hbr] at hsnap
    simp only [Option.map_some'] at hsnap
    injection hsnap with hsnap
    injection hsnap with h1 h2
    subst h1
    subst h2
    refine ⟨rfl, ?_, hfresh, ?_, ?_, ?_⟩
    · exact lookupAssoc_setAssoc_self _ _ _
    · intro pr hpr
      exact Nat.ne_of_lt (hwf.2 pr hpr)
    · unfold listSnapshot stagingOf
      dsimp only
      rw [lookupAssoc_setAssoc_ne _ _ _ _ hfresh]
    · intro p oe st'' hwrite
      unfold writeStaging at hwrite
      dsimp only at hwrite
      rw [lookupAssoc_setAssoc_self] at hwrite
      simp only [Option.map_some'] at hwrite
      injection hwrite with hwrite
      subst hwrite
      constructor
      · unfold listSnapshot stagingOf
        dsimp only
        rw [lookupAssoc_setAssoc_ne _ _ _ _ hfresh,
          lookupAssoc_setAssoc_ne _ _ _ _ hfresh]
      · unfold stagingOf
        dsimp only
        rw [lookupAssoc_setAssoc_self]
        dsimp only [Option.getD]
        exact lookupAssoc_setAssoc_self _ _ _

/-- Concrete catalog state for the C8 witness: branch `main` on token 0 with
one staged entry. -/
def stC8 : CatalogState :=
  { branches := [("main", { commitID := "c0", stagingToken := 0 })],
    commits := [("c0", commit0)],
    trees := [(treeIdOf [], [])],
    staging := [(0, [("a", some entryA)])],
    tokenCounter := 1 }

/-- Witness for C8 at a concrete state: snapshotting `main` succeeds,
returns old token 0, allocates fresh token 1, keeps token 0 readable, and
subsequent writes land in token 1 only. -/
theorem C8_witness :
    (snapshot stC8 "main").isSome ∧
      ∀ tok' st', snapshot stC8 "main" = some (tok', st') →
        tok' = (0 : StagingToken) ∧
        lookupAssoc st'.branches "main" =
          some { commitID := "c0", stagingToken := (1 : StagingToken) } ∧
        (0 : StagingToken) ≠ 1 ∧
        (∀ pr ∈ stC8.staging, pr.1 ≠ 1) ∧
        listSnapshot st' 0 = stagingOf stC8 0 ∧
        (∀ p oe st'', writeStaging st' "main" p oe = some st'' →
          listSnapshot st'' 0 = stagingOf stC8 0 ∧
          lookupAssoc (stagingOf st'' 1) p = some oe) :=
  C8_snapshot_freezes_old_token stC8 "main" { commitID := "c0", stagingToken := 0 }
    (by decide) (by unfold tokensWF; decide)

theorem isEmpty_setAssoc {κ ν : Type} [DecidableEq κ] (l : List (κ × ν)) (k : κ) (v : ν) :
    (setAssoc l k v).isEmpty = false := by
  cases hE : setAssoc l k v with
  | nil => exact absurd hE (setAssoc_ne_nil l k v)
  | cons hd tl => rfl

/-- The commit record built by `Catalog.Commit` (spec step 4: "Build a Commit
record with parents = [C], TreeID = newTree, caller-supplied
committer/message/metadata"). -/
def mkCommit (m : CommitMeta) (br : Branch) (tid : TreeID) : Commit :=
  { committer := m.committer, message := m.message, treeID := tid,
    creationDate := m.creationDate, parents := [br.commitID], metadata := m.metadata }

/-- The state produced by a successful `Catalog.Commit` (spec steps 1-6),
written out as a function of the applied tree contents `nc`. -/
def commitStateAfter (st : CatalogState) (b : BranchID) (m : CommitMeta) (br : Branch)
    (nc : List (Path × Entry)) : CatalogState :=
  { branches := setAssoc st.branches b
      { commitID := commitIdOf (mkCommit m br (treeIdOf nc)), stagingToken := st.tokenCounter },
    commits := setAssoc st.commits (commitIdOf (mkCommit m br (treeIdOf nc)))
      (mkCommit m br (treeIdOf nc)),
    trees := setAssoc st.trees (treeIdOf nc) nc,
    staging := setAssoc (removeAssoc st.staging br.stagingToken) st.tokenCounter [],
    tokenCounter := st.tokenCounter + 1 }

theorem commitOp_eq (st : CatalogState) (b : BranchID) (m : CommitMeta) (br : Branch)
    (c : Commit) (t : List (Path × Entry))
    (hbr : lookupAssoc st.branches b = some br)
    (hne : (stagingOf st br.stagingToken).isEmpty = false)
    (hc : lookupAssoc st.commits br.commitID = some c)
    (ht : lookupAssoc st.trees c.treeID = some t) :
    commitOp st b m = .ok
      (commitIdOf (mkCommit m br (treeIdOf (applyChanges t (stagingOf st br.stagingToken)))),
        commitStateAfter st b m br (applyChanges t (stagingOf st br.stagingToken))) := by
  unfold commitOp
  rw [hbr]
  dsimp only
  rw [hne]
  simp only [Bool.false_eq_true, if_false]
  rw [hc]
  dsimp only
  rw [ht]
  rfl

theorem getEntry_commitStateAfter (st : CatalogState) (b : BranchID) (m : CommitMeta)
    (br : Branch) (nc : List (Path × Entry)) (p : Path) :
    getEntry (commitStateAfter st b m br nc) b p =
      match lookupAssoc nc p with
      | some e => .ok e
      | none => .error .notFound := by
  unfold getEntry commitStateAfter
  dsimp only
  rw [lookupAssoc_setAssoc_self]
  dsimp only
  unfold stagingOf
  dsimp only
  rw [lookupAssoc_setAssoc_self]
  dsimp only [Option.getD]
  unfold committedRead
  dsimp only
  rw [lookupAssoc_setAssoc_self]
  unfold committedGetEntry
  dsimp only [mkCommit]
  rw [lookupAssoc_setAssoc_self]
  rfl

/-- Claim C2: round-trip through commit.  For every entry `E` and path `P`
on a branch (with a well-formed state: branch, its commit, and its tree
exist; the staging overlay has no duplicate paths), `SetEntry(P, E)` then
`Commit` then `GetEntry(branch, P)` returns `E`; and `DeleteEntry(P)` then
`Commit` makes `GetEntry(branch, P)` return NotFound. -/
theorem C2_roundtrip_through_commit (st : CatalogState) (b : BranchID) (p : Path)
    (e : Entry) (m m' : CommitMeta) (br : Branch) (c : Commit) (t : List (Path × Entry))
    (hbr : lookupAssoc st.branches b = some br)
    (hc : lookupAssoc st.commits br.commitID = some c)
    (ht : lookupAssoc st.trees c.treeID = some t)
    (hnd : (assocKeys (stagingOf st br.stagingToken)).Nodup) :
    (setEntry st b p e).isSome ∧
      (∀ st1, setEntry st b p e = some st1 →
        ∃ cid st2, commitOp st1 b m = .ok (cid, st2) ∧ getEntry st2 b p = .ok e) ∧
      (deleteEntry st b p).isSome ∧
      (∀ st1, deleteEntry st b p = some st1 →
        ∃ cid st2, commitOp st1 b m' = .ok (cid, st2) ∧
          getEntry st2 b p = .error .notFound) := by
  refine ⟨?_, ?_, ?_, ?_⟩
  · unfold setEntry writeStaging
    rw [hbr]
    rfl
  · intro st1 hset
    unfold setEntry writeStaging at hset
    rw [hbr] at hset
    simp only [Option.map_some'] at hset
    injection hset with hset
    subst hset
    have hstag1 : stagingOf
        { st with
          staging := setAssoc st.staging br.stagingToken
              (setAssoc (stagingOf st br.stagingToken) p (some e)) } br.stagingToken =
        setAssoc (stagingOf st br.stagingToken) p (some e) := by
      unfold stagingOf
      dsimp only
      rw [lookupAssoc_setAssoc_self]
      rfl
    have hne1 := hstag1 ▸ isEmpty_setAssoc (stagingOf st br.stagingToken) p (some e)
    refine ⟨_, _, commitOp_eq _ b m br c t hbr (by rw [hstag1]; exact isEmpty_setAssoc _ _ _)
      hc ht, ?_⟩
    rw [getEntry_commitStateAfter, hstag1,
      lookupAssoc_applyChanges _ _ _ (nodup_keys_setAssoc _ _ _ hnd),
      lookupAssoc_setAssoc_self]
  · unfold deleteEntry writeStaging
    rw [hbr]
    rfl
  · intro st1 hdel
    unfold deleteEntry writeStaging at hdel
    rw [hbr] at hdel
    simp only [Option.map_some'] at hdel
    injection hdel with hdel
    subst hdel
    have hstag1 : stagingOf
        { st with
          staging := setAssoc st.staging br.stagingToken
              (setAssoc (stagingOf st br.stagingToken) p none) } br.stagingToken =
        setAssoc (stagingOf st br.stagingToken) p none := by
      unfold stagingOf
      dsimp only
      rw [lookupAssoc_setAssoc_self]
      rfl
    refine ⟨_, _, commitOp_eq _ b m' br c t hbr (by rw [hstag1]; exact isEmpty_setAssoc _ _ _)
      hc ht, ?_⟩
    rw [getEntry_commitStateAfter, hstag1,
      lookupAssoc_applyChanges _ _ _ (nodup_keys_setAssoc _ _ _ hnd),
      lookupAssoc_setAssoc_self]

/-- Commit metadata used by the C2 witness. -/
def metaW : CommitMeta :=
  { committer := "ada", message := "c", creationDate := 9, metadata := [] }

/-- Concrete catalog state for the C2 witness: branch `main` at the empty
root commit with an empty staging overlay on token 0. -/
def stC2 : CatalogState :=
  { branches := [("main", { commitID := "c0", stagingToken := 0 })],
    commits := [("c0", commit0)],
    trees := [(treeIdOf [], [])],
    staging := [(0, [])],
    tokenCounter := 1 }

/-- Witness for C2 at a concrete state: staging a write (or a delete) on
`main` and committing round-trips through `GetEntry`. -/
theorem C2_witness :
    (setEntry stC2 "main" "a" entryA).isSome ∧
      (∀ st1, setEntry stC2 "main" "a" entryA = some st1 →
        ∃ cid st2, commitOp st1 "main" metaW = .ok (cid, st2) ∧
          getEntry st2 "main" "a" = .ok entryA) ∧
      (deleteEntry stC2 "main" "a").isSome ∧
      (∀ st1, deleteEntry stC2 "main" "a" = some st1 →
        ∃ cid st2, commitOp st1 "main" metaW = .ok (cid, st2) ∧
          getEntry st2 "main" "a" = .error .notFound) :=
  C2_roundtrip_through_commit stC2 "main" "a" entryA metaW metaW
    { commitID := "c0", stagingToken := 0 } commit0 [] (by decide) (by decide)
    (by decide) (by decide)

theorem oveq_some_some (a b : Entry) : oveq (some a) (some b) = a.veq b := rfl

/-- Claim C5: per-path diff classification from `left` toward `right`
against `base` (entry comparison is the spec's value-equality `veq`): a path
present only in `right` (absent in `left` and `base`) yields Added; a path
absent in `right` but present in `left` yields Removed; a path present in
both with differing values yields Changed when one side equals base and
Conflict when both sides differ from base and from each other; a path equal
in `left` and `right` is not yielded at all. -/
theorem C5_diff_classification (l r b : List (Path × Entry)) (p : Path) :
    (lookupAssoc l p = none → lookupAssoc b p = none →
      ∀ er, lookupAssoc r p = some er →
        ({ path := p, type := .added } : Diff) ∈ diffTrees l r b) ∧
    (lookupAssoc r p = none → ∀ el, lookupAssoc l p = some el →
        ({ path := p, type := .removed } : Diff) ∈ diffTrees l r b) ∧
    (∀ el er, lookupAssoc l p = some el → lookupAssoc r p = some er →
      el.veq er = false →
        ((el.veq er = false ∧
            (oveq (some el) (lookupAssoc b p) || oveq (some er) (lookupAssoc b p)) = true) →
          ({ path := p, type := .changed } : Diff) ∈ diffTrees l r b) ∧
        ((oveq (some el) (lookupAssoc b p) = false ∧
            oveq (some er) (lookupAssoc b p) = false) →
          ({ path := p, type := .conflict } : Diff) ∈ diffTrees l r b)) ∧
    (oveq (lookupAssoc l p) (lookupAssoc r p) = true →
      ∀ d, ({ path := p, type := d } : Diff) ∉ diffTrees l r b) := by
  refine ⟨?_, ?_, ?_, ?_⟩
  · intro hl hb er hr
    rw [mem_diffTrees, hl, hb, hr]
    simp [classify, oveq]
  · intro hr el hl
    rw [mem_diffTrees, hl, hr]
    simp [classify, oveq]
  · intro el er hl hr hveq
    constructor
    · rintro ⟨-, hbase⟩
      rw [mem_diffTrees, hl, hr]
      simp [classify, oveq_some_some, hveq, hbase]
    · rintro ⟨hb1, hb2⟩
      rw [mem_diffTrees, hl, hr]
      simp [classify, oveq_some_some, hveq, hb1, hb2]
  · intro heq d
    rw [mem_diffTrees]
    simp [classify, heq]

/-- Second concrete entry for the diff witness. -/
def entryB : Entry :=
  { lastModified := 2, address := "addr-b", metadata := [], etag := "eb" }

/-- Left tree for the C5 witness. -/
def lC5 : List (Path × Entry) := [("s", entryA)]

/-- Right tree for the C5 witness: adds `n`, keeps `s` unchanged. -/
def rC5 : List (Path × Entry) := [("n", entryB), ("s", entryA)]

/-- Base tree for the C5 witness. -/
def bC5 : List (Path × Entry) := []

/-- Witness for C5 at concrete trees: the path added on the right is yielded
as Added, and the path equal on both sides is not yielded at all. -/
theorem C5_witness :
    ({ path := "n", type := .added } : Diff) ∈ diffTrees lC5 rC5 bC5 ∧
      ∀ d, ({ path := "s", type := d } : Diff) ∉ diffTrees lC5 rC5 bC5 :=
  ⟨(C5_diff_classification lC5 rC5 bC5 "n").1 (by decide) (by decide) entryB (by decide),
   (C5_diff_classification lC5 rC5 bC5 "s").2.2.2 (by decide)⟩

/-- Claim C6: merge fast-forward cases.  When the refs resolve to commits
`F` (from) and `T` (to, the branch tip): if `FindMergeBase(F, T) = T` then
`Merge` succeeds and advances branch `to` to `F` without creating a commit
(the commit, tree and staging stores are untouched); if the merge base
equals `F` then `Merge` is a no-op (the state is returned unchanged: no
commit is created and the branch does not move). -/
theorem C6_merge_fast_forward (st : CatalogState) (fromRef : Ref) (toB : BranchID)
    (m : CommitMeta) (f : CommitID) (toBr : Branch)
    (hf : deref st fromRef = some f)
    (hto : lookupAssoc st.branches toB = some toBr) :
    (findMergeBase st.commits f toBr.commitID = some toBr.commitID →
      (mergeOp st fromRef toB m).isOk ∧
      ∀ st', mergeOp st fromRef toB m = .ok st' →
        lookupAssoc st'.branches toB =
          some { commitID := f, stagingToken := toBr.stagingToken } ∧
        st'.commits = st.commits ∧ st'.trees = st.trees ∧
        st'.staging = st.staging ∧ st'.tokenCounter = st.tokenCounter) ∧
    (findMergeBase st.commits f toBr.commitID = some f →
      mergeOp st fromRef toB m = .ok st) := by
  constructor
  · intro hbase
    unfold mergeOp
    rw [hf]
    dsimp only
    rw [hto]
    dsimp only
    rw [hbase]
    dsimp only
    rw [if_pos rfl]
    refine ⟨rfl, ?_⟩
    intro st' hok
    injection hok with hok
    subst hok
    exact ⟨lookupAssoc_setAssoc_self _ _ _, rfl, rfl, rfl, rfl⟩
  · intro hbase
    unfold mergeOp
    rw [hf]
    dsimp only
    rw [hto]
    dsimp only
    rw [hbase]
    dsimp only
    by_cases hEq : f = toBr.commitID
    · rw [if_pos hEq]
      have hBrEq : ({ commitID := f, stagingToken := toBr.stagingToken } : Branch) = toBr := by
        rw [hEq]
      rw [hBrEq, setAssoc_self_eq _ _ _ hto]
    · rw [if_neg hEq, if_pos rfl]

/-- Root commit of the C6/C7 witness graph. -/
def ccRoot : Commit :=
  { committer := "ada", message := "root", treeID := "t0", creationDate := 0,
    parents := [], metadata := [] }

/-- Child commit of the C6/C7 witness graph (parent `c0`). -/
def ccChild : Commit :=
  { committer := "ada", message := "child", treeID := "t1", creationDate := 1,
    parents := ["c0"], metadata := [] }

/-- Commit store of the C6/C7 witness graph: `c1` is a child of `c0`. -/
def commitsW : List (CommitID × Commit) := [("c0", ccRoot), ("c1", ccChild)]

/-- Concrete catalog state for the C6 witness: branch `main` at `c0`. -/
def stC6 : CatalogState :=
  { branches := [("main", { commitID := "c0", stagingToken := 0 })],
    commits := commitsW, trees := [], staging := [], tokenCounter := 1 }

/-- Witness for C6 at a concrete state: merging descendant `c1` into `main`
(at `c0`) fast-forwards the branch to `c1` without a new commit, and merging
`c0` into `main` is a no-op. -/
theorem C6_witness :
    ((mergeOp stC6 "c1" "main" metaW).isOk ∧
      ∀ st', mergeOp stC6 "c1" "main" metaW = .ok st' →
        lookupAssoc st'.branches "main" = some { commitID := "c1", stagingToken := 0 } ∧
        st'.commits = stC6.commits ∧ st'.trees = stC6.trees ∧
        st'.staging = stC6.staging ∧ st'.tokenCounter = stC6.tokenCounter) ∧
      mergeOp stC6 "c0" "main" metaW = .ok stC6 :=
  ⟨(C6_merge_fast_forward stC6 "c1" "main" metaW "c1"
      { commitID := "c0", stagingToken := 0 } (by decide) (by decide)).1 (by decide),
   (C6_merge_fast_forward stC6 "c0" "main" metaW "c0"
      { commitID := "c0", stagingToken := 0 } (by decide) (by decide)).2 (by decide)⟩

/-! ## Claim C7 machinery: properties of the merge-base computation -/

theorem mem_ancStep_of_mem (commits : List (CommitID × Commit)) (s : List CommitID)
    (x : CommitID) (hx : x ∈ s) : x ∈ ancStep commits s := by
  unfold ancStep
  rw [List.mem_dedup]
  exact List.mem_append_left _ hx

theorem mem_ancIter_of_mem (commits : List (CommitID × Commit)) (n : Nat) :
    ∀ s x, x ∈ s → x ∈ ancIter commits n s := by
  induction n with
  | zero => intro s x hx; exact hx
  | succ n ih => intro s x hx; exact ih _ _ (mem_ancStep_of_mem _ _ _ hx)

theorem mem_parentsOf (commits : List (CommitID × Commit)) {y z : CommitID}
    (h : y ∈ parentsOf commits z) :
    ∃ cm, lookupAssoc commits z = some cm ∧ y ∈ cm.parents := by
  unfold parentsOf at h
  cases hz : lookupAssoc commits z with
  | none => rw [hz] at h; simp at h
  | some cm =>
    rw [hz] at h
    exact ⟨cm, rfl, by simpa using h⟩

/-- Acyclicity of the commit store, witnessed by a rank function that
strictly decreases along parent edges (the spec's "the commit DAG is acyclic
by construction"). -/
def RankOK (commits : List (CommitID × Commit)) (rank : CommitID → Nat) : Prop :=
  ∀ pr ∈ commits, ∀ p ∈ pr.2.parents, rank p < rank pr.1

theorem rank_of_mem_ancStep {commits : List (CommitID × Commit)} {rank : CommitID → Nat}
    (hr : RankOK commits rank) {s : List CommitID} {y : CommitID}
    (h : y ∈ ancStep commits s) : y ∈ s ∨ ∃ z ∈ s, rank y < rank z := by
  unfold ancStep at h
  rw [List.mem_dedup, List.mem_append] at h
  rcases h with h | h
  · exact Or.inl h
  · rw [List.mem_flatMap] at h
    obtain ⟨z, hz, hy⟩ := h
    obtain ⟨cm, hcm, hyp⟩ := mem_parentsOf commits hy
    exact Or.inr ⟨z, hz, hr (z, cm) (lookupAssoc_mem hcm) y hyp⟩

theorem rank_of_mem_ancIter {commits : List (CommitID × Commit)} {rank : CommitID → Nat}
    (hr : RankOK commits rank) :
    ∀ n s y, y ∈ ancIter commits n s → y ∈ s ∨ ∃ z ∈ s, rank y < rank z := by
  intro n
  induction n with
  | zero => intro s y hy; exact Or.inl hy
  | succ n ih =>
    intro s y hy
    rcases ih _ _ hy with h | ⟨z, hz, hrank⟩
    · exact rank_of_mem_ancStep hr h
    · rcases rank_of_mem_ancStep hr hz with h2 | ⟨w, hw, hrank2⟩
      · exact Or.inr ⟨z, h2, hrank⟩
      · exact Or.inr ⟨w, hw, lt_trans hrank hrank2⟩

theorem isAncestor_rank {commits : List (CommitID × Commit)} {rank : CommitID → Nat}
    (hr : RankOK commits rank) {x y : CommitID}
    (h : isAncestor commits x y = true) : x = y ∨ rank x < rank y := by
  unfold isAncestor at h
  rw [decide_eq_true_eq] at h
  unfold ancestors at h
  rcases rank_of_mem_ancIter hr _ _ _ h with h1 | ⟨z, hz, h2⟩
  · rw [List.mem_singleton] at h1
    exact Or.inl h1
  · rw [List.mem_singleton] at hz
    subst hz
    exact Or.inr h2

theorem isAncestor_refl (commits : List (CommitID × Commit)) (x : CommitID) :
    isAncestor commits x x = true := by
  unfold isAncestor
  rw [decide_eq_true_eq]
  exact mem_ancIter_of_mem _ _ _ _ (List.mem_singleton.mpr rfl)

theorem ancestors_of_absent {commits : List (CommitID × Commit)} {d : CommitID}
    (h : lookupAssoc commits d = none) : ancestors commits d = [d] := by
  unfold ancestors
  have hstep : ancStep commits [d] = [d] := by
    unfold ancStep parentsOf
    simp [h]
  generalize commits.length = n
  induction n with
  | zero => rfl
  | succ n ih =>
    rw [show ancIter commits (n + 1) [d] = ancIter commits n (ancStep commits [d]) from rfl,
      hstep]
    exact ih

theorem exists_max_rank (rank : CommitID → Nat) :
    ∀ l : List CommitID, l ≠ [] → ∃ c ∈ l, ∀ d ∈ l, rank d ≤ rank c := by
  intro l
  induction l with
  | nil => intro h; exact absurd rfl h
  | cons x xs ih =>
    intro _
    cases hxs : xs with
    | nil =>
      refine ⟨x, List.mem_singleton.mpr rfl, ?_⟩
      intro d hd
      rw [List.mem_singleton] at hd
      subst hd
      exact le_refl _
    | cons y ys =>
      subst hxs
      obtain ⟨c, hc, hmax⟩ := ih (by simp)
      by_cases hcmp : rank x ≤ rank c
      · refine ⟨c, List.mem_cons_of_mem _ hc, ?_⟩
        intro d hd
        rcases List.mem_cons.mp hd with h | h
        · subst h; exact hcmp
        · exact hmax d h
      · push_neg at hcmp
        refine ⟨x, List.mem_cons_self _ _, ?_⟩
        intro d hd
        rcases List.mem_cons.mp hd with h | h
        · subst h; exact le_refl _
        · exact le_of_lt (lt_of_le_of_lt (hmax d h) hcmp)

theorem pickFold_mem (commits : List (CommitID × Commit)) :
    ∀ (l : List CommitID) (acc : Option CommitID) (c : CommitID),
      List.foldl (pickStep commits) acc l = some c → c ∈ l ∨ acc = some c := by
  intro l
  induction l with
  | nil => intro acc c h; exact Or.inr h
  | cons x xs ih =>
    intro acc c h
    rcases ih (pickStep commits acc x) c h with h2 | h2
    · exact Or.inl (List.mem_cons_of_mem _ h2)
    · cases acc with
      | none =>
        injection h2 with h2
        subst h2
        exact Or.inl (List.mem_cons_self _ _)
      | some d =>
        unfold pickStep at h2
        dsimp only at h2
        by_cases hb : betterBase commits x d
        · rw [if_pos hb] at h2
          injection h2 with h2
          subst h2
          exact Or.inl (List.mem_cons_self _ _)
        · rw [if_neg hb] at h2
          exact Or.inr h2

theorem pickFold_isSome (commits : List (CommitID × Commit)) :
    ∀ (l : List CommitID) (acc : Option CommitID), acc.isSome = true →
      (List.foldl (pickStep commits) acc l).isSome = true := by
  intro l
  induction l with
  | nil => intro acc h; exact h
  | cons x xs ih =>
    intro acc h
    refine ih (pickStep commits acc x) ?_
    cases acc with
    | none => rfl
    | some d =>
      unfold pickStep
      dsimp only
      by_cases hb : betterBase commits x d
      · rw [if_pos hb]; rfl
      · rw [if_neg hb]; rfl

theorem pickBase_mem {commits : List (CommitID × Commit)} {l : List CommitID}
    {c : CommitID} (h : pickBase commits l = some c) : c ∈ l := by
  rcases pickFold_mem commits l none c h with h2 | h2
  · exact h2
  · exact Option.noConfusion h2

theorem pickBase_isSome {commits : List (CommitID × Commit)} {l : List CommitID}
    (h : l ≠ []) : (pickBase commits l).isSome = true := by
  cases l with
  | nil => exact absurd rfl h
  | cons x xs =>
    unfold pickBase
    rw [show List.foldl (pickStep commits) none (x :: xs) =
      List.foldl (pickStep commits) (some x) xs from rfl]
    exact pickFold_isSome commits xs (some x) rfl

theorem mem_mbCands {commits : List (CommitID × Commit)} {a b c : CommitID} :
    c ∈ mbCands commits a b ↔
      c ∈ assocKeys commits ∧ isAncestor commits c a = true ∧
        isAncestor commits c b = true := by
  unfold mbCands
  rw [List.mem_filter, Bool.and_eq_true]

theorem mem_mbMinimal {commits : List (CommitID × Commit)} {a b c : CommitID} :
    c ∈ mbMinimal commits a b ↔
      c ∈ mbCands commits a b ∧
        ∀ d ∈ mbCands commits a b, d ≠ c → isAncestor commits c d = false := by
  unfold mbMinimal
  rw [List.mem_filter]
  constructor
  · rintro ⟨h1, h2⟩
    refine ⟨h1, ?_⟩
    intro d hd hne
    by_contra hA
    rw [Bool.not_eq_false] at hA
    have hany : ((mbCands commits a b).any fun d' =>
        (d' != c) && isAncestor commits c d') = true :=
      List.any_eq_true.mpr ⟨d, hd, by rw [Bool.and_eq_true, bne_iff_ne]; exact ⟨hne, hA⟩⟩
    rw [hany] at h2
    exact Bool.noConfusion h2
  · rintro ⟨h1, h2⟩
    refine ⟨h1, ?_⟩
    rw [Bool.not_eq_true']
    by_contra hA
    rw [Bool.not_eq_false] at hA
    obtain ⟨d, hd, hpred⟩ := List.any_eq_true.mp hA
    rw [Bool.and_eq_true, bne_iff_ne] at hpred
    have := h2 d hd hpred.1
    rw [hpred.2] at this
    exact Bool.noConfusion this

/-- Claim C7: `FindMergeBase` is symmetric; on inputs with a common ancestor
in the store it returns a commit that is an ancestor of both and has no
strict descendant that is an ancestor of both; and when the two commits
share no ancestor it returns NotFound (`none`).  Acyclicity of the commit
store is assumed via a rank function that decreases along parent edges. -/
theorem C7_findMergeBase_lca (commits : List (CommitID × Commit)) (rank : CommitID → Nat)
    (a b : CommitID) (hr : RankOK commits rank) :
    findMergeBase commits a b = findMergeBase commits b a ∧
      ((∃ c ∈ assocKeys commits, isAncestor commits c a = true ∧
          isAncestor commits c b = true) →
        ∃ base, findMergeBase commits a b = some base ∧
          isAncestor commits base a = true ∧ isAncestor commits base b = true ∧
          ∀ d, isAncestor commits base d = true → d ≠ base →
            ¬(isAncestor commits d a = true ∧ isAncestor commits d b = true)) ∧
      ((∀ c, ¬(isAncestor commits c a = true ∧ isAncestor commits c b = true)) →
        findMergeBase commits a b = none) := by
  have hcomm : mbCands commits a b = mbCands commits b a := by
    unfold mbCands
    exact List.filter_congr (fun x _ => Bool.and_comm _ _)
  refine ⟨?_, ?_, ?_⟩
  · unfold findMergeBase mbMinimal
    rw [hcomm]
  · rintro ⟨c, hck, hca, hcb⟩
    have hcmem : c ∈ mbCands commits a b := mem_mbCands.mpr ⟨hck, hca, hcb⟩
    obtain ⟨c0, hc0, hmax⟩ := exists_max_rank rank _ (List.ne_nil_of_mem hcmem)
    have hc0min : c0 ∈ mbMinimal commits a b := by
      rw [mem_mbMinimal]
      refine ⟨hc0, ?_⟩
      intro d hd hdne
      by_contra hA
      rw [Bool.not_eq_false] at hA
      rcases isAncestor_rank hr hA with hEq | hLt
      · exact hdne hEq.symm
      · exact absurd (hmax d hd) (not_le.mpr hLt)
    obtain ⟨base, hbase⟩ :=
      Option.isSome_iff_exists.mp (pickBase_isSome (List.ne_nil_of_mem hc0min))
    have hbmem := pickBase_mem hbase
    rw [mem_mbMinimal] at hbmem
    obtain ⟨hbc, hbmin⟩ := hbmem
    have hbc2 := mem_mbCands.mp hbc
    refine ⟨base, hbase, hbc2.2.1, hbc2.2.2, ?_⟩
    intro d hanc hdne hcom
    by_cases hdk : d ∈ assocKeys commits
    · have hdc : d ∈ mbCands commits a b := mem_mbCands.mpr ⟨hdk, hcom.1, hcom.2⟩
      have hFalse := hbmin d hdc hdne
      rw [hanc] at hFalse
      exact Bool.noConfusion hFalse
    · have hlk : lookupAssoc commits d = none := lookupAssoc_eq_none_of_not_mem_keys hdk
      have h1 : base = d := by
        have h2 := hanc
        unfold isAncestor at h2
        rw [decide_eq_true_eq, ancestors_of_absent hlk, List.mem_singleton] at h2
        exact h2
      exact hdne h1.symm
  · intro h
    have hnil : mbCands commits a b = [] := by
      unfold mbCands
      rw [List.filter_eq_nil_iff]
      intro c hc
      intro hand
      rw [Bool.and_eq_true] at hand
      exact h c hand
    unfold findMergeBase
    rw [show mbMinimal commits a b = [] from by unfold mbMinimal; rw [hnil]; rfl]
    rfl

/-- Rank function witnessing acyclicity of `commitsW`. -/
def rankW : CommitID → Nat := fun c => if c = "c0" then 0 else 1

/-- Witness for C7 at the concrete two-commit graph `commitsW`: the theorem
applies with the concrete rank function, giving symmetry, existence and
minimality of the merge base of `c1` and `c0`, and the NotFound case. -/
theorem C7_witness :
    findMergeBase commitsW "c1" "c0" = findMergeBase commitsW "c0" "c1" ∧
      ((∃ c ∈ assocKeys commitsW, isAncestor commitsW c "c1" = true ∧
          isAncestor commitsW c "c0" = true) →
        ∃ base, findMergeBase commitsW "c1" "c0" = some base ∧
          isAncestor commitsW base "c1" = true ∧ isAncestor commitsW base "c0" = true ∧
          ∀ d, isAncestor commitsW base d = true → d ≠ base →
            ¬(isAncestor commitsW d "c1" = true ∧ isAncestor commitsW d "c0" = true)) ∧
      ((∀ c, ¬(isAncestor commitsW c "c1" = true ∧ isAncestor commitsW c "c0" = true)) →
        findMergeBase commitsW "c1" "c0" = none) :=
  C7_findMergeBase_lca commitsW rankW "c1" "c0" (by unfold RankOK; decide)
